import Mathlib

/-!
Verification of the interval engine of `cybersecurity/ip_extract.py`.

The engine receives candidate strings shaped like IPv4 addresses or IPv4 CIDR
blocks (lexical extraction from free text is an external collaborator), parses
each candidate into a closed integer interval, deduplicates, sorts canonically
and optionally merges overlapping or integer-adjacent intervals.

Candidate parsing follows the semantics of Python's `ipaddress` module
(an external library used by the source): an octet is a decimal digit string of
at most three characters, without leading zeros, with value at most 255; a
prefix length is a decimal digit string with value at most 32; a CIDR candidate
is parsed non-strictly (`strict=False`), clearing the host bits of the given
address.  Any parse failure drops the candidate (`ValueError` is caught and
skipped in the source).
-/

set_option maxRecDepth 8000

namespace IpExtract

/-- Split a character list at every occurrence of `sep`, mirroring Python's
`str.split(sep)` (an empty input yields one empty field). -/
def splitOnChar (sep : Char) : List Char → List (List Char)
  | [] => [[]]
  | c :: cs =>
    if c = sep then [] :: splitOnChar sep cs
    else
      match splitOnChar sep cs with
      | [] => [[c]]
      | r :: rs => (c :: r) :: rs

/-- Numeric value of a decimal digit string, as computed by Python's `int`. -/
def decimalValue (s : List Char) : Nat :=
  s.foldl (fun a c => a * 10 + (c.toNat - 48)) 0

/-- One dotted-decimal octet, per `ipaddress._parse_octet`: nonempty, all
digits, at most three characters, no leading zero, value at most 255. -/
def parseOctet (s : List Char) : Option Nat :=
  if s ≠ [] ∧ s.all Char.isDigit ∧ s.length ≤ 3 ∧
      ¬(1 < s.length ∧ s.head? = some '0') ∧ decimalValue s ≤ 255 then
    some (decimalValue s)
  else none

/-- A dotted-quad IPv4 address: exactly four octets, combined big-endian, as in
`ipaddress.ip_address` on a string (`int(ip)` in the source). -/
def parseAddr (s : List Char) : Option Nat :=
  match splitOnChar '.' s with
  | [o0, o1, o2, o3] =>
    match parseOctet o0, parseOctet o1, parseOctet o2, parseOctet o3 with
    | some v0, some v1, some v2, some v3 =>
      some (v0 * 2 ^ 24 + v1 * 2 ^ 16 + v2 * 2 ^ 8 + v3)
    | _, _, _, _ => none
  | _ => none

/-- A prefix length, per `ipaddress._prefix_from_prefix_string`: nonempty
digit string whose value is at most 32 (leading zeros are tolerated here). -/
def parsePrefixLen (s : List Char) : Option Nat :=
  if s ≠ [] ∧ s.all Char.isDigit ∧ decimalValue s ≤ 32 then
    some (decimalValue s)
  else none

/-- The all-ones 32-bit word, `ipaddress`'s `_ALL_ONES` for IPv4. -/
def ALL_ONES : Nat := 2 ^ 32 - 1

/-- The host mask of a prefix length, per `ipaddress`: `ALL_ONES >> p`. -/
def hostmask (p : Nat) : Nat := ALL_ONES >>> p

/-- The network mask of a prefix length, per `ipaddress`:
`ALL_ONES ^ (ALL_ONES >> p)`. -/
def netmask (p : Nat) : Nat := ALL_ONES ^^^ hostmask p

/-- Parse one candidate string into an interval, mirroring the loop body of
`parse_ranges`: a candidate containing `/` goes through
`ipaddress.ip_network(m, strict=False)` and contributes
`(int(net.network_address), int(net.broadcast_address))`; otherwise
`ipaddress.ip_address(m)` contributes the degenerate interval.  A failed
parse (Python `ValueError`) yields `none` and the candidate is dropped. -/
def parseCandidate (s : String) : Option (Nat × Nat) :=
  if '/' ∈ s.toList then
    match splitOnChar '/' s.toList with
    | [a, p] =>
      match parseAddr a, parsePrefixLen p with
      | some v, some pl =>
        some (v &&& netmask pl, (v &&& netmask pl) ||| hostmask pl)
      | _, _ => none
    | _ => none
  else
    match parseAddr s.toList with
    | some v => some (v, v)
    | none => none

/-- Canonical order on intervals: the sort key `(t[0], t[1])` of the source,
i.e. by start ascending, ties broken by end ascending. -/
def canonLE (a b : Nat × Nat) : Prop :=
  a.1 < b.1 ∨ (a.1 = b.1 ∧ a.2 ≤ b.2)

instance : DecidableRel canonLE := fun a b =>
  inferInstanceAs (Decidable (a.1 < b.1 ∨ (a.1 = b.1 ∧ a.2 ≤ b.2)))

instance : IsTotal (Nat × Nat) canonLE :=
  ⟨fun a b => by unfold canonLE; omega⟩

instance : IsTrans (Nat × Nat) canonLE :=
  ⟨fun a b c => by unfold canonLE; omega⟩

/-- The accumulator loop of `merge_ranges`: `cur` is the last entry of the
Python `merged` list; a subsequent interval either folds into it
(`merged[-1] = (last_start, max(last_end, end))`) or is appended. -/
def mergeGo : Nat × Nat → List (Nat × Nat) → List (Nat × Nat)
  | cur, [] => [cur]
  | cur, r :: rest =>
    if r.1 ≤ cur.2 + 1 then mergeGo (cur.1, max cur.2 r.2) rest
    else cur :: mergeGo r rest

/-- `merge_ranges` of the source: merge overlapping or contiguous ranges by a
single left-to-right sweep. -/
def merge_ranges : List (Nat × Nat) → List (Nat × Nat)
  | [] => []
  | r :: rs => mergeGo r rs

/-- `parse_ranges` of the source, over the sequence of candidate strings
produced by the external extractor: parse each candidate (dropping failures),
deduplicate through a set, sort by `(start, end)`, and optionally merge. -/
def parse_ranges (candidates : List String) (merge : Bool) : List (Nat × Nat) :=
  if merge then
    merge_ranges (List.insertionSort canonLE ((candidates.filterMap parseCandidate).dedup))
  else
    List.insertionSort canonLE ((candidates.filterMap parseCandidate).dedup)

/-- Two consecutive intervals are neither overlapping nor integer-adjacent:
the next start is strictly beyond the current end plus one. -/
def gapped (a b : Nat × Nat) : Prop := a.2 + 1 < b.1

instance : DecidableRel gapped := fun a b =>
  inferInstanceAs (Decidable (a.2 + 1 < b.1))

/-- The integer `n` is covered by some interval of the list. -/
def covers (l : List (Nat × Nat)) (n : Nat) : Prop :=
  ∃ p ∈ l, p.1 ≤ n ∧ n ≤ p.2

instance (l : List (Nat × Nat)) (n : Nat) : Decidable (covers l n) :=
  inferInstanceAs (Decidable (∃ p ∈ l, p.1 ≤ n ∧ n ≤ p.2))

lemma parseOctet_le_255 {s : List Char} {v : Nat} (h : parseOctet s = some v) : v ≤ 255 := by
  unfold parseOctet at h
  split at h
  · rename_i hc
    cases h
    exact hc.2.2.2.2
  · cases h

lemma parsePrefixLen_le_32 {s : List Char} {v : Nat} (h : parsePrefixLen s = some v) :
    v ≤ 32 := by
  unfold parsePrefixLen at h
  split at h
  · rename_i hc
    cases h
    exact hc.2.2
  · cases h

lemma parseAddr_lt {s : List Char} {v : Nat} (h : parseAddr s = some v) : v < 2 ^ 32 := by
  unfold parseAddr at h
  split at h
  · split at h
    · rename_i h0 h1 h2 h3
      cases h
      have b0 := parseOctet_le_255 h0
      have b1 := parseOctet_le_255 h1
      have b2 := parseOctet_le_255 h2
      have b3 := parseOctet_le_255 h3
      have e24 : (2 : Nat) ^ 24 = 16777216 := by norm_num
      have e16 : (2 : Nat) ^ 16 = 65536 := by norm_num
      have e8 : (2 : Nat) ^ 8 = 256 := by norm_num
      have e32 : (2 : Nat) ^ 32 = 4294967296 := by norm_num
      rw [e24, e16, e8, e32]
      omega
    · cases h
  · cases h

lemma mul_pred_add_div {d q : Nat} (hd : 0 < d) (hq : 0 < q) : (d * q - 1) / d = q - 1 := by
  have hmul : d * (q - 1) = d * q - d := Nat.mul_sub_one d q
  have hle : d * 1 ≤ d * q := Nat.mul_le_mul_left d hq
  have key : d * q - 1 = d * (q - 1) + (d - 1) := by omega
  rw [key, Nat.mul_add_div hd]
  have hz : (d - 1) / d = 0 := Nat.div_eq_of_lt (by omega)
  omega

lemma hostmask_eq {p : Nat} (hp : p ≤ 32) : hostmask p = 2 ^ (32 - p) - 1 := by
  unfold hostmask ALL_ONES
  rw [Nat.shiftRight_eq_div_pow]
  have hsplit : (2 : Nat) ^ 32 = 2 ^ p * 2 ^ (32 - p) := by
    rw [← pow_add]
    congr 1
    omega
  rw [hsplit]
  exact mul_pred_add_div (Nat.two_pow_pos p) (Nat.two_pow_pos (32 - p))

lemma and_netmask_eq {p v : Nat} (hp : p ≤ 32) (hv : v < 2 ^ 32) :
    v &&& netmask p = 2 ^ (32 - p) * (v / 2 ^ (32 - p)) := by
  have hrhs : 2 ^ (32 - p) * (v / 2 ^ (32 - p)) = (v >>> (32 - p)) <<< (32 - p) := by
    rw [Nat.shiftLeft_eq, Nat.shiftRight_eq_div_pow, Nat.mul_comm]
  rw [hrhs]
  apply Nat.eq_of_testBit_eq
  intro i
  have hnet : netmask p = (2 ^ 32 - 1) ^^^ (2 ^ (32 - p) - 1) := by
    rw [netmask, hostmask_eq hp, ALL_ONES]
  rw [hnet, Nat.testBit_and, Nat.testBit_xor, Nat.testBit_two_pow_sub_one,
    Nat.testBit_two_pow_sub_one, Nat.testBit_shiftLeft, Nat.testBit_shiftRight]
  by_cases h1 : i < 32 - p
  · have h2 : i < 32 := by omega
    simp [h1, h2, Nat.not_le.mpr h1]
  · by_cases h2 : i < 32
    · have hle : 32 - p ≤ i := Nat.not_lt.mp h1
      have hidx : 32 - p + (i - (32 - p)) = i := by omega
      simp [h1, h2, hle, hidx]
    · have hbit : v.testBit i = false := by
        apply Nat.testBit_lt_two_pow
        calc v < 2 ^ 32 := hv
          _ ≤ 2 ^ i := Nat.pow_le_pow_right (by norm_num) (by omega)
      have hle : 32 - p ≤ i := by omega
      have hidx : 32 - p + (i - (32 - p)) = i := by omega
      simp [h1, h2, hle, hidx, hbit]

lemma network_or_hostmask {p v : Nat} (hp : p ≤ 32) (hv : v < 2 ^ 32) :
    (v &&& netmask p) ||| hostmask p
      = 2 ^ (32 - p) * (v / 2 ^ (32 - p)) + (2 ^ (32 - p) - 1) := by
  rw [and_netmask_eq hp hv, hostmask_eq hp]
  exact (Nat.mul_add_lt_is_or (by simp [Nat.two_pow_pos]) _).symm

lemma parseCandidate_wf {c : String} {r : Nat × Nat} (h : parseCandidate c = some r) :
    r.1 ≤ r.2 ∧ r.2 ≤ 2 ^ 32 - 1 := by
  unfold parseCandidate at h
  split at h
  · split at h
    · split at h
      · rename_i v pl ha hpl
        cases h
        have hv := parseAddr_lt ha
        have hp := parsePrefixLen_le_32 hpl
        have hand := and_netmask_eq hp hv
        have hor := network_or_hostmask hp hv
        have hq : v / 2 ^ (32 - pl) < 2 ^ pl := by
          rw [Nat.div_lt_iff_lt_mul (Nat.two_pow_pos _)]
          calc v < 2 ^ 32 := hv
            _ = 2 ^ pl * 2 ^ (32 - pl) := by
                rw [← pow_add]
                congr 1
                omega
        have h32 : (2 : Nat) ^ (32 - pl) * 2 ^ pl = 2 ^ 32 := by
          rw [← pow_add]
          congr 1
          omega
        have hmul : 2 ^ (32 - pl) * (v / 2 ^ (32 - pl) + 1) ≤ 2 ^ 32 := by
          rw [← h32]
          exact Nat.mul_le_mul_left _ hq
        have hexp : 2 ^ (32 - pl) * (v / 2 ^ (32 - pl) + 1)
            = 2 ^ (32 - pl) * (v / 2 ^ (32 - pl)) + 2 ^ (32 - pl) := by ring
        have hpos : 0 < (2 : Nat) ^ (32 - pl) := Nat.two_pow_pos _
        constructor
        · show v &&& netmask pl ≤ (v &&& netmask pl) ||| hostmask pl
          rw [hor, hand]
          omega
        · show (v &&& netmask pl) ||| hostmask pl ≤ 2 ^ 32 - 1
          rw [hor]
          omega
      · cases h
    · cases h
  · split at h
    · rename_i v ha
      cases h
      have hv := parseAddr_lt ha
      exact ⟨le_refl _, by omega⟩
    · cases h

/-- Comparison of starts only; a consequence of canonical order used as the
precondition actually exercised by the merge sweep. -/
def startLE (a b : Nat × Nat) : Prop := a.1 ≤ b.1

lemma mergeGo_nil (cur : Nat × Nat) : mergeGo cur [] = [cur] := rfl

lemma mergeGo_cons (cur r : Nat × Nat) (rest : List (Nat × Nat)) :
    mergeGo cur (r :: rest)
      = if r.1 ≤ cur.2 + 1 then mergeGo (cur.1, max cur.2 r.2) rest
        else cur :: mergeGo r rest := rfl

lemma covers_cons {p : Nat × Nat} {l : List (Nat × Nat)} {n : Nat} :
    covers (p :: l) n ↔ (p.1 ≤ n ∧ n ≤ p.2) ∨ covers l n := by
  simp [covers]

lemma mergeGo_head (rest : List (Nat × Nat)) :
    ∀ cur : Nat × Nat, ∃ e t, mergeGo cur rest = (cur.1, e) :: t ∧ cur.2 ≤ e := by
  induction rest with
  | nil => exact fun cur => ⟨cur.2, [], rfl, le_refl _⟩
  | cons r rest ih =>
    intro cur
    rw [mergeGo_cons]
    by_cases hc : r.1 ≤ cur.2 + 1
    · rw [if_pos hc]
      obtain ⟨e, t, heq, he⟩ := ih (cur.1, max cur.2 r.2)
      exact ⟨e, t, heq, le_trans (le_max_left _ _) he⟩
    · rw [if_neg hc]
      exact ⟨cur.2, mergeGo r rest, rfl, le_refl _⟩

lemma mergeGo_all (P : Nat × Nat → Prop)
    (hP : ∀ a b, P a → P b → P (a.1, max a.2 b.2)) :
    ∀ (rest : List (Nat × Nat)) (cur : Nat × Nat), P cur → (∀ p ∈ rest, P p) →
      ∀ p ∈ mergeGo cur rest, P p := by
  intro rest
  induction rest with
  | nil =>
    intro cur hcur _ p hp
    rw [mergeGo_nil] at hp
    exact (List.mem_singleton.mp hp) ▸ hcur
  | cons r rest ih =>
    intro cur hcur hrest p hp
    rw [mergeGo_cons] at hp
    by_cases hc : r.1 ≤ cur.2 + 1
    · rw [if_pos hc] at hp
      exact ih (cur.1, max cur.2 r.2) (hP cur r hcur (hrest r (List.mem_cons_self r rest)))
        (fun q hq => hrest q (List.mem_cons_of_mem r hq)) p hp
    · rw [if_neg hc] at hp
      rcases List.mem_cons.mp hp with h | h
      · exact h ▸ hcur
      · exact ih r (hrest r (List.mem_cons_self r rest))
          (fun q hq => hrest q (List.mem_cons_of_mem r hq)) p h

lemma chain_start_fold {cur r : Nat × Nat} {rest : List (Nat × Nat)}
    (h : List.Chain' startLE (cur :: r :: rest)) :
    List.Chain' startLE ((cur.1, max cur.2 r.2) :: rest) := by
  have h1 := (List.chain'_cons.mp h).1
  have h2 := (List.chain'_cons.mp h).2
  cases rest with
  | nil => exact List.chain'_singleton _
  | cons r2 rs =>
    have h3 := List.chain'_cons.mp h2
    exact List.chain'_cons.mpr ⟨le_trans h1 h3.1, h3.2⟩

lemma mergeGo_chain :
    ∀ (rest : List (Nat × Nat)) (cur : Nat × Nat),
      List.Chain' startLE (cur :: rest) →
      List.Chain' gapped (mergeGo cur rest) := by
  intro rest
  induction rest with
  | nil =>
    intro cur _
    rw [mergeGo_nil]
    exact List.chain'_singleton _
  | cons r rest ih =>
    intro cur hchain
    rw [mergeGo_cons]
    by_cases hc : r.1 ≤ cur.2 + 1
    · rw [if_pos hc]
      exact ih (cur.1, max cur.2 r.2) (chain_start_fold hchain)
    · rw [if_neg hc]
      rw [List.chain'_cons']
      constructor
      · intro b hb
        obtain ⟨e, t, heq, he⟩ := mergeGo_head rest r
        rw [heq, List.head?_cons, Option.mem_some] at hb
        rw [← hb]
        exact (show cur.2 + 1 < r.1 by omega)
      · exact ih r (List.chain'_cons.mp hchain).2

lemma mergeGo_covers :
    ∀ (rest : List (Nat × Nat)) (cur : Nat × Nat),
      List.Chain' startLE (cur :: rest) →
      ∀ n, covers (mergeGo cur rest) n ↔ covers (cur :: rest) n := by
  intro rest
  induction rest with
  | nil =>
    intro cur _ n
    rw [mergeGo_nil]
  | cons r rest ih =>
    intro cur hchain n
    have hle : cur.1 ≤ r.1 := (List.chain'_cons.mp hchain).1
    have htail := (List.chain'_cons.mp hchain).2
    rw [mergeGo_cons]
    by_cases hc : r.1 ≤ cur.2 + 1
    · rw [if_pos hc]
      rw [ih (cur.1, max cur.2 r.2) (chain_start_fold hchain) n]
      rw [covers_cons, covers_cons, covers_cons]
      dsimp only
      constructor
      · rintro (⟨h1, h2⟩ | hX)
        · by_cases hm : n ≤ cur.2
          · exact Or.inl ⟨h1, hm⟩
          · exact Or.inr (Or.inl ⟨by omega, by omega⟩)
        · exact Or.inr (Or.inr hX)
      · rintro (⟨h1, h2⟩ | ⟨h1, h2⟩ | hX)
        · exact Or.inl ⟨h1, by omega⟩
        · exact Or.inl ⟨le_trans hle h1, by omega⟩
        · exact Or.inr hX
    · rw [if_neg hc]
      rw [covers_cons, covers_cons, ih r htail n, covers_cons]

lemma gapped_all_of_chain (rest : List (Nat × Nat)) :
    ∀ a : Nat × Nat, (∀ p ∈ a :: rest, p.1 ≤ p.2) → List.Chain' gapped (a :: rest) →
      ∀ b ∈ rest, gapped a b := by
  induction rest with
  | nil =>
    intro a _ _ b hb
    simp at hb
  | cons r rs ih =>
    intro a hwf hchain b hb
    have h1 := (List.chain'_cons.mp hchain).1
    have h2 := (List.chain'_cons.mp hchain).2
    rcases List.mem_cons.mp hb with h | h
    · exact h ▸ h1
    · have hr := ih r (fun p hp => hwf p (List.mem_cons_of_mem a hp)) h2 b h
      have hwr := hwf r (List.mem_cons_of_mem a (List.mem_cons_self r rs))
      unfold gapped at h1 hr ⊢
      omega

lemma pairwise_gapped {R : List (Nat × Nat)} (hwf : ∀ p ∈ R, p.1 ≤ p.2)
    (hchain : List.Chain' gapped R) : List.Pairwise gapped R := by
  induction R with
  | nil => exact List.Pairwise.nil
  | cons a rs ih =>
    refine List.pairwise_cons.mpr ⟨gapped_all_of_chain rs a hwf hchain, ?_⟩
    exact ih (fun p hp => hwf p (List.mem_cons_of_mem a hp)) hchain.tail

lemma sorted_of_gapped {R : List (Nat × Nat)} (hwf : ∀ p ∈ R, p.1 ≤ p.2)
    (hp : List.Pairwise gapped R) : List.Sorted canonLE R := by
  refine hp.imp_of_mem ?_
  intro a b ha hb hg
  unfold gapped at hg
  have := hwf a ha
  unfold canonLE
  omega

lemma min_cover (R M : List (Nat × Nat)) (hwf : ∀ p ∈ R, p.1 ≤ p.2)
    (hgap : List.Pairwise gapped R)
    (hcov : ∀ n, covers M n ↔ covers R n) : R.length ≤ M.length := by
  have hidx : ∀ i : Fin R.length, ∃ j : Fin M.length,
      (M.get j).1 ≤ (R.get i).1 ∧ (R.get i).1 ≤ (M.get j).2 := by
    intro i
    have hcovR : covers R (R.get i).1 :=
      ⟨R.get i, List.get_mem R i.1 i.2, le_refl _, hwf _ (List.get_mem R i.1 i.2)⟩
    obtain ⟨q, hqm, hq1, hq2⟩ := (hcov _).mpr hcovR
    obtain ⟨j, hj⟩ := List.mem_iff_get.mp hqm
    exact ⟨j, by rw [hj]; exact hq1, by rw [hj]; exact hq2⟩
  choose f hf1 hf2 using hidx
  have key : ∀ i j : Fin R.length, i < j → f i ≠ f j := by
    intro i j hij heq
    have hg : gapped (R.get i) (R.get j) := List.pairwise_iff_get.mp hgap i j hij
    unfold gapped at hg
    have hcovg : covers M ((R.get i).2 + 1) := by
      refine ⟨M.get (f i), List.get_mem M (f i).1 (f i).2, ?_, ?_⟩
      · have h1 := hf1 i
        have h2 := hwf (R.get i) (List.get_mem R i.1 i.2)
        omega
      · have h2 := hf2 j
        rw [← heq] at h2
        omega
    obtain ⟨p, hpm, hp1, hp2⟩ := (hcov _).mp hcovg
    obtain ⟨k, hk⟩ := List.mem_iff_get.mp hpm
    rcases lt_trichotomy k i with hki | hki | hki
    · have hgk : gapped (R.get k) (R.get i) := List.pairwise_iff_get.mp hgap k i hki
      have hwi := hwf (R.get i) (List.get_mem R i.1 i.2)
      unfold gapped at hgk
      rw [← hk] at hp2
      omega
    · subst hki
      rw [← hk] at hp2
      omega
    · have hgk : gapped (R.get i) (R.get k) := List.pairwise_iff_get.mp hgap i k hki
      unfold gapped at hgk
      rw [← hk] at hp1
      omega
  have hinj : Function.Injective f := by
    intro i j heq
    by_contra hne
    rcases lt_or_gt_of_ne hne with h | h
    · exact key i j h heq
    · exact key j i h heq.symm
  calc R.length = Fintype.card (Fin R.length) := (Fintype.card_fin _).symm
    _ ≤ Fintype.card (Fin M.length) := Fintype.card_le_of_injective f hinj
    _ = M.length := Fintype.card_fin _

lemma merge_ranges_facts (l : List (Nat × Nat)) (hwf : ∀ p ∈ l, p.1 ≤ p.2)
    (hsorted : l.Sorted canonLE) :
    (∀ p ∈ merge_ranges l, p.1 ≤ p.2) ∧
    List.Chain' gapped (merge_ranges l) ∧
    (∀ n, covers (merge_ranges l) n ↔ covers l n) := by
  cases l with
  | nil => exact ⟨by simp [merge_ranges], by simp [merge_ranges], fun n => Iff.rfl⟩
  | cons a rs =>
    have hchain : List.Chain' startLE (a :: rs) :=
      (List.Pairwise.chain' hsorted).imp
        (fun {x y} h => by unfold canonLE at h; unfold startLE; omega)
    refine ⟨?_, mergeGo_chain rs a hchain, mergeGo_covers rs a hchain⟩
    exact mergeGo_all (fun p => p.1 ≤ p.2)
      (fun x y hx hy => by dsimp only; omega) rs a
      (hwf a (List.mem_cons_self a rs))
      (fun p hp => hwf p (List.mem_cons_of_mem a hp))

lemma mergeGo_gapped_id :
    ∀ (rest : List (Nat × Nat)) (cur : Nat × Nat),
      List.Chain' gapped (cur :: rest) → mergeGo cur rest = cur :: rest := by
  intro rest
  induction rest with
  | nil =>
    intro cur _
    rfl
  | cons r rs ih =>
    intro cur hchain
    have h1 := (List.chain'_cons.mp hchain).1
    unfold gapped at h1
    rw [mergeGo_cons, if_neg (by omega)]
    rw [ih r (List.chain'_cons.mp hchain).2]

/-- Claim C1: for every input list of intervals in canonical order (sorted by
start ascending, ties by end ascending) and duplicate-free, `merge_ranges`
returns a sequence in canonical order in which no two consecutive intervals
overlap or are integer-adjacent (each next start is strictly greater than the
previous end plus one), and the set of integers covered by the output equals
the set covered by the input. -/
theorem merge_ranges_postcondition (l : List (Nat × Nat))
    (hwf : ∀ p ∈ l, p.1 ≤ p.2) (hsorted : l.Sorted canonLE) (_hnodup : l.Nodup) :
    (merge_ranges l).Sorted canonLE ∧
    List.Chain' gapped (merge_ranges l) ∧
    (∀ n, covers (merge_ranges l) n ↔ covers l n) := by
  obtain ⟨hw, hch, hcov⟩ := merge_ranges_facts l hwf hsorted
  exact ⟨sorted_of_gapped hw (pairwise_gapped hw hch), hch, hcov⟩

/-- Witness for C1 at a concrete canonically ordered duplicate-free input. -/
theorem merge_ranges_postcondition_witness :
    ((∀ p ∈ [((10 : Nat), (20 : Nat)), (15, 30), (33, 40)], p.1 ≤ p.2) ∧
      ([((10 : Nat), (20 : Nat)), (15, 30), (33, 40)]).Sorted canonLE ∧
      ([((10 : Nat), (20 : Nat)), (15, 30), (33, 40)]).Nodup) ∧
    ((merge_ranges [(10, 20), (15, 30), (33, 40)]).Sorted canonLE ∧
      List.Chain' gapped (merge_ranges [(10, 20), (15, 30), (33, 40)]) ∧
      (∀ n, covers (merge_ranges [(10, 20), (15, 30), (33, 40)]) n ↔
        covers [(10, 20), (15, 30), (33, 40)] n)) :=
  ⟨⟨by decide, by decide, by decide⟩,
    merge_ranges_postcondition [(10, 20), (15, 30), (33, 40)]
      (by decide) (by decide) (by decide)⟩

/-- Claim C2: for every canonically ordered, duplicate-free input list of
well-formed intervals, `merge_ranges` produces a minimal covering: no list of
closed integer intervals covering exactly the same set of integers as the
output has fewer intervals than the output. -/
theorem merge_ranges_minimal (l M : List (Nat × Nat))
    (hwf : ∀ p ∈ l, p.1 ≤ p.2) (hsorted : l.Sorted canonLE) (_hnodup : l.Nodup)
    (hcov : ∀ n, covers M n ↔ covers (merge_ranges l) n) :
    (merge_ranges l).length ≤ M.length := by
  obtain ⟨hw, hch, _⟩ := merge_ranges_facts l hwf hsorted
  exact min_cover (merge_ranges l) M hw (pairwise_gapped hw hch) hcov

/-- Witness for C2 at a concrete input, with the merged output itself as the
competing cover. -/
theorem merge_ranges_minimal_witness :
    ((∀ p ∈ [((0 : Nat), (5 : Nat)), (7, 10)], p.1 ≤ p.2) ∧
      ([((0 : Nat), (5 : Nat)), (7, 10)]).Sorted canonLE ∧
      ([((0 : Nat), (5 : Nat)), (7, 10)]).Nodup ∧
      (∀ n, covers [((0 : Nat), (5 : Nat)), (7, 10)] n ↔
        covers (merge_ranges [(0, 5), (7, 10)]) n)) ∧
    (merge_ranges [((0 : Nat), (5 : Nat)), (7, 10)]).length ≤
      ([((0 : Nat), (5 : Nat)), (7, 10)]).length :=
  ⟨⟨by decide, by decide, by decide, fun n => Iff.rfl⟩,
    merge_ranges_minimal [(0, 5), (7, 10)] [(0, 5), (7, 10)]
      (by decide) (by decide) (by decide) (fun n => Iff.rfl)⟩

/-- Claim C3: `merge_ranges` is idempotent: a canonically ordered sequence in
which no two consecutive intervals overlap or are integer-adjacent is returned
unchanged, element for element. -/
theorem merge_ranges_idempotent (l : List (Nat × Nat))
    (hsorted : l.Sorted canonLE) (hgap : List.Chain' gapped l) :
    merge_ranges l = l := by
  cases l with
  | nil => rfl
  | cons a rs => exact mergeGo_gapped_id rs a hgap

/-- Witness for C3 at a concrete already-merged input. -/
theorem merge_ranges_idempotent_witness :
    (([((1 : Nat), (2 : Nat)), (5, 9), (100, 100)]).Sorted canonLE ∧
      List.Chain' gapped [((1 : Nat), (2 : Nat)), (5, 9), (100, 100)]) ∧
    merge_ranges [((1 : Nat), (2 : Nat)), (5, 9), (100, 100)]
      = [((1 : Nat), (2 : Nat)), (5, 9), (100, 100)] :=
  ⟨⟨by decide,
      List.chain'_cons.mpr ⟨by decide, List.chain'_pair.mpr (by decide)⟩⟩,
    merge_ranges_idempotent [(1, 2), (5, 9), (100, 100)] (by decide)
      (List.chain'_cons.mpr ⟨by decide, List.chain'_pair.mpr (by decide)⟩)⟩

lemma parse_ranges_false_eq (cs : List String) :
    parse_ranges cs false
      = List.insertionSort canonLE ((cs.filterMap parseCandidate).dedup) := rfl

lemma parse_ranges_true_eq (cs : List String) :
    parse_ranges cs true
      = merge_ranges (List.insertionSort canonLE ((cs.filterMap parseCandidate).dedup)) := rfl

/-- Claim C7: with merging disabled, `parse_ranges` returns, for every input,
a duplicate-free sequence sorted in canonical order (start ascending, ties by
end ascending); every input with no valid candidate — the empty input
included — yields the empty sequence; and a candidate already present in the
input contributes nothing new, so the same address occurring twice yields
exactly one interval. -/
theorem parse_ranges_canonical (cs cs0 : List String) (c : String) :
    (parse_ranges cs false).Sorted canonLE ∧
    (parse_ranges cs false).Nodup ∧
    parse_ranges [] false = [] ∧
    ((∀ c0 ∈ cs0, parseCandidate c0 = none) → parse_ranges cs0 false = []) ∧
    (c ∈ cs → parse_ranges (c :: cs) false = parse_ranges cs false) := by
  refine ⟨List.sorted_insertionSort canonLE _, ?_, rfl, ?_, ?_⟩
  · exact ((List.perm_insertionSort canonLE _).nodup_iff).mpr (List.nodup_dedup _)
  · intro h0
    rw [parse_ranges_false_eq, List.filterMap_eq_nil_iff.mpr h0]
    rfl
  · intro hc
    rw [parse_ranges_false_eq, parse_ranges_false_eq]
    cases hpc : parseCandidate c with
    | none => rw [List.filterMap_cons_none hpc]
    | some r =>
      rw [List.filterMap_cons_some hpc,
        List.dedup_cons_of_mem (List.mem_filterMap.mpr ⟨c, hc, hpc⟩)]

/-- Witness for C7 on a concrete candidate list with a repeated address and a
concrete nonempty all-invalid input. -/
theorem parse_ranges_canonical_witness :
    (∀ c0 ∈ ["999.999.999.999"], parseCandidate c0 = none) ∧
    ("10.0.0.1" ∈ ["10.0.0.5", "10.0.0.1"]) ∧
    ((parse_ranges ["10.0.0.5", "10.0.0.1"] false).Sorted canonLE ∧
      (parse_ranges ["10.0.0.5", "10.0.0.1"] false).Nodup ∧
      parse_ranges [] false = [] ∧
      parse_ranges ["999.999.999.999"] false = [] ∧
      parse_ranges ["10.0.0.1", "10.0.0.5", "10.0.0.1"] false
        = parse_ranges ["10.0.0.5", "10.0.0.1"] false) :=
  ⟨by decide, by decide,
    have h := parse_ranges_canonical ["10.0.0.5", "10.0.0.1"] ["999.999.999.999"] "10.0.0.1"
    ⟨h.1, h.2.1, h.2.2.1, h.2.2.2.1 (by decide), h.2.2.2.2 (by decide)⟩⟩

/-- Claim C8: `parse_ranges` is deterministic: two invocations on the same
candidate sequence with the same merge flag return identical results (the
engine is a pure function of its input collection). -/
theorem parse_ranges_deterministic (cs : List String) (m : Bool)
    (r1 r2 : List (Nat × Nat))
    (h1 : r1 = parse_ranges cs m) (h2 : r2 = parse_ranges cs m) : r1 = r2 :=
  h1.trans h2.symm

/-- Witness for C8 on a concrete run executed twice. -/
theorem parse_ranges_deterministic_witness :
    ([((167772165 : Nat), (167772165 : Nat))] = parse_ranges ["10.0.0.5"] false) ∧
    ([((167772165 : Nat), (167772165 : Nat))] = parse_ranges ["10.0.0.5"] false) ∧
    ([((167772165 : Nat), (167772165 : Nat))] = [((167772165 : Nat), (167772165 : Nat))]) :=
  ⟨by decide, by decide,
    parse_ranges_deterministic ["10.0.0.5"] false _ _ (by decide) (by decide)⟩

/-- Claim C9: every interval returned by `parse_ranges`, with or without
merging, is well-formed: its start is at most its end and both bounds lie in
the unsigned 32-bit range. -/
theorem parse_ranges_wellformed (cs : List String) (m : Bool) :
    ∀ r ∈ parse_ranges cs m, r.1 ≤ r.2 ∧ r.1 ≤ 2 ^ 32 - 1 ∧ r.2 ≤ 2 ^ 32 - 1 := by
  have hbase : ∀ r ∈ List.insertionSort canonLE ((cs.filterMap parseCandidate).dedup),
      r.1 ≤ r.2 ∧ r.2 ≤ 2 ^ 32 - 1 := by
    intro r hr
    have hmem : r ∈ cs.filterMap parseCandidate :=
      List.mem_dedup.mp (((List.perm_insertionSort canonLE _).mem_iff).mp hr)
    obtain ⟨c, _, hpc⟩ := List.mem_filterMap.mp hmem
    exact parseCandidate_wf hpc
  cases m with
  | false =>
    intro r hr
    rw [parse_ranges_false_eq] at hr
    have h := hbase r hr
    exact ⟨h.1, by omega, h.2⟩
  | true =>
    intro r hr
    rw [parse_ranges_true_eq] at hr
    cases hcase : List.insertionSort canonLE ((cs.filterMap parseCandidate).dedup) with
    | nil =>
      rw [hcase] at hr
      simp [merge_ranges] at hr
    | cons a rs =>
      rw [hcase] at hr
      rw [hcase] at hbase
      have h := mergeGo_all (fun p => p.1 ≤ p.2 ∧ p.2 ≤ 2 ^ 32 - 1)
        (fun x y hx hy => by dsimp only; omega) rs a
        (hbase a (List.mem_cons_self a rs))
        (fun p hp => hbase p (List.mem_cons_of_mem a hp)) r hr
      exact ⟨h.1, by omega, h.2⟩

/-- Witness for C9 at a concrete parsed and merged output interval. -/
theorem parse_ranges_wellformed_witness :
    ((167772165, 167772165) ∈ parse_ranges ["10.0.0.5", "10.0.0.5/32"] true) ∧
    ((167772165 : Nat) ≤ (167772165 : Nat) ∧ (167772165 : Nat) ≤ 2 ^ 32 - 1 ∧
      (167772165 : Nat) ≤ 2 ^ 32 - 1) :=
  ⟨by decide,
    parse_ranges_wellformed ["10.0.0.5", "10.0.0.5/32"] true (167772165, 167772165)
      (by decide)⟩

/-- Claim C6: an invalid candidate (octet above 255, prefix above 32, or a
structurally invalid literal such as one with leading zeros) contributes no
interval, raises no fatal error, and does not prevent the other candidates of
the same input from being parsed; `999.999.999.999` in particular never
reaches the output. -/
theorem invalid_candidate_skipped (pre post : List String) (c : String) (m : Bool)
    (h : parseCandidate c = none) :
    parse_ranges (pre ++ c :: post) m = parse_ranges (pre ++ post) m ∧
    parseCandidate "999.999.999.999" = none ∧
    parse_ranges ["999.999.999.999"] m = [] := by
  have hfm : (pre ++ c :: post).filterMap parseCandidate
      = (pre ++ post).filterMap parseCandidate := by
    rw [List.filterMap_append, List.filterMap_append, List.filterMap_cons_none h]
  refine ⟨?_, by decide, ?_⟩
  · unfold parse_ranges
    rw [hfm]
  · cases m with
    | false => decide
    | true => decide

/-- Witness for C6: the out-of-range literal is dropped in the middle of a
run without disturbing its neighbours. -/
theorem invalid_candidate_skipped_witness :
    (parseCandidate "999.999.999.999" = none) ∧
    (parse_ranges ["10.0.0.5", "999.999.999.999", "10.0.0.1"] false
        = parse_ranges ["10.0.0.5", "10.0.0.1"] false ∧
      parseCandidate "999.999.999.999" = none ∧
      parse_ranges ["999.999.999.999"] false = []) :=
  ⟨by decide,
    invalid_candidate_skipped ["10.0.0.5"] ["10.0.0.1"] "999.999.999.999" false
      (by decide)⟩

/-- Counterexample to claim C4 as stated: the candidate `010.0.0.5` contains
no slash and splits into four octet fields whose decimal values 10, 0, 0, 5
all lie in the range 0 to 255, yet parsing produces no interval at all
(`ipaddress` rejects the leading zero), not the degenerate interval of the
address value. -/
theorem parse_single_address_counterexample :
    ('/' ∉ "010.0.0.5".toList) ∧
    (splitOnChar '.' "010.0.0.5".toList).map decimalValue = [10, 0, 0, 5] ∧
    (∀ o ∈ splitOnChar '.' "010.0.0.5".toList, decimalValue o ≤ 255) ∧
    parseCandidate "010.0.0.5"
      ≠ some (10 * 2 ^ 24 + 0 * 2 ^ 16 + 0 * 2 ^ 8 + 5,
          10 * 2 ^ 24 + 0 * 2 ^ 16 + 0 * 2 ^ 8 + 5) ∧
    parseCandidate "010.0.0.5" = none := by decide

/-- Claim C4 as amended: for every candidate string without a slash whose four
octet fields are valid octet literals (digit strings without leading zeros
whose values lie in 0 to 255), parsing produces the degenerate interval at the
address's big-endian 32-bit value; in particular `10.0.0.5` yields
`(167772165, 167772165)`. -/
theorem parse_single_address (s : String) (o0 o1 o2 o3 : List Char)
    (v0 v1 v2 v3 : Nat)
    (hns : '/' ∉ s.toList)
    (hsplit : splitOnChar '.' s.toList = [o0, o1, o2, o3])
    (h0 : parseOctet o0 = some v0) (h1 : parseOctet o1 = some v1)
    (h2 : parseOctet o2 = some v2) (h3 : parseOctet o3 = some v3) :
    parseCandidate s
      = some (v0 * 2 ^ 24 + v1 * 2 ^ 16 + v2 * 2 ^ 8 + v3,
          v0 * 2 ^ 24 + v1 * 2 ^ 16 + v2 * 2 ^ 8 + v3) ∧
    parseCandidate "10.0.0.5" = some (167772165, 167772165) := by
  refine ⟨?_, by decide⟩
  unfold parseCandidate parseAddr
  rw [if_neg hns, hsplit]
  dsimp only
  rw [h0, h1, h2, h3]

/-- Witness for the amended C4 at the concrete candidate `10.0.0.5`. -/
theorem parse_single_address_witness :
    ('/' ∉ "10.0.0.5".toList) ∧
    splitOnChar '.' "10.0.0.5".toList = [['1', '0'], ['0'], ['0'], ['5']] ∧
    parseOctet ['1', '0'] = some 10 ∧ parseOctet ['0'] = some 0 ∧
    parseOctet ['0'] = some 0 ∧ parseOctet ['5'] = some 5 ∧
    (parseCandidate "10.0.0.5"
        = some (10 * 2 ^ 24 + 0 * 2 ^ 16 + 0 * 2 ^ 8 + 5,
            10 * 2 ^ 24 + 0 * 2 ^ 16 + 0 * 2 ^ 8 + 5) ∧
      parseCandidate "10.0.0.5" = some (167772165, 167772165)) :=
  ⟨by decide, by decide, by decide, by decide, by decide, by decide,
    parse_single_address "10.0.0.5" ['1', '0'] ['0'] ['0'] ['5'] 10 0 0 5
      (by decide) (by decide) (by decide) (by decide) (by decide) (by decide)⟩

/-- Claim C5: a candidate of the form address slash prefix, with valid octets
and prefix length at most 32, parses to the interval from `address & mask` to
`(address & mask) | hostmask` where `mask` is the prefix mask and `hostmask`
its complement: host bits set in the address are normalized away rather than
rejected (non-strict parsing).  In particular `192.168.1.0/24` yields
`(3232235776, 3232236031)`, and `192.168.1.7/24` — host bits set — yields the
same interval. -/
theorem parse_cidr_interval (s : String) (a p : List Char) (v pl : Nat)
    (hin : '/' ∈ s.toList)
    (hsplit : splitOnChar '/' s.toList = [a, p])
    (ha : parseAddr a = some v) (hp : parsePrefixLen p = some pl) :
    parseCandidate s = some (v &&& netmask pl, (v &&& netmask pl) ||| hostmask pl) ∧
    parseCandidate "192.168.1.0/24" = some (3232235776, 3232236031) ∧
    parseCandidate "192.168.1.7/24" = some (3232235776, 3232236031) := by
  refine ⟨?_, by decide, by decide⟩
  unfold parseCandidate
  rw [if_pos hin, hsplit]
  dsimp only
  rw [ha, hp]

/-- Witness for C5 at the concrete candidate `192.168.1.0/24`. -/
theorem parse_cidr_interval_witness :
    ('/' ∈ "192.168.1.0/24".toList) ∧
    splitOnChar '/' "192.168.1.0/24".toList = ["192.168.1.0".toList, "24".toList] ∧
    parseAddr "192.168.1.0".toList = some 3232235776 ∧
    parsePrefixLen "24".toList = some 24 ∧
    (parseCandidate "192.168.1.0/24"
        = some (3232235776 &&& netmask 24, (3232235776 &&& netmask 24) ||| hostmask 24) ∧
      parseCandidate "192.168.1.0/24" = some (3232235776, 3232236031) ∧
      parseCandidate "192.168.1.7/24" = some (3232235776, 3232236031)) :=
  ⟨by decide, by decide, by decide, by decide,
    parse_cidr_interval "192.168.1.0/24" "192.168.1.0".toList "24".toList 3232235776 24
      (by decide) (by decide) (by decide) (by decide)⟩

lemma splitOnChar_cons (sep c : Char) (cs : List Char) :
    splitOnChar sep (c :: cs)
      = if c = sep then [] :: splitOnChar sep cs
        else
          match splitOnChar sep cs with
          | [] => [[c]]
          | r :: rs => (c :: r) :: rs := rfl

lemma splitOnChar_append {sep : Char} {l r : List Char} (h : sep ∉ l) :
    splitOnChar sep (l ++ sep :: r) = l :: splitOnChar sep r := by
  induction l with
  | nil =>
    rw [List.nil_append, splitOnChar_cons, if_pos rfl]
  | cons c cs ih =>
    have hc : ¬(c = sep) := fun he => h (he ▸ List.mem_cons_self c cs)
    have hcs : sep ∉ cs := fun hm => h (List.mem_cons_of_mem c hm)
    rw [List.cons_append, splitOnChar_cons, if_neg hc, ih hcs]

/-- Claim C10: for every valid dotted-decimal address string, appending `/32`
yields a candidate that parses to exactly the same interval as the bare
address: the degenerate one-address block and the single address are
interchangeable at the parsing interface. -/
theorem parse_slash32_eq_single (s : String) (v : Nat)
    (hns : '/' ∉ s.toList) (ha : parseAddr s.toList = some v) :
    parseCandidate (s ++ "/32") = parseCandidate s := by
  have hdata : (s ++ "/32").toList = s.toList ++ '/' :: ['3', '2'] := by
    show (s ++ "/32").data = s.data ++ '/' :: ['3', '2']
    rw [String.data_append]
  have hin : '/' ∈ (s ++ "/32").toList := by
    rw [hdata]
    exact List.mem_append_right _ (List.mem_cons_self _ _)
  have hsplit : splitOnChar '/' (s ++ "/32").toList = [s.toList, ['3', '2']] := by
    rw [hdata, splitOnChar_append hns]
    rfl
  have hp32 : parsePrefixLen ['3', '2'] = some 32 := by decide
  have hv := parseAddr_lt ha
  have hmask : netmask 32 = 2 ^ 32 - 1 := by decide
  have hhost : hostmask 32 = 0 := by decide
  unfold parseCandidate
  rw [if_pos hin, if_neg hns, hsplit]
  dsimp only
  rw [ha, hp32]
  dsimp only
  rw [hmask, hhost, Nat.or_zero, Nat.and_pow_two_sub_one_of_lt_two_pow hv]

/-- Witness for C10 at the concrete address `10.0.0.5`. -/
theorem parse_slash32_eq_single_witness :
    ('/' ∉ "10.0.0.5".toList) ∧
    parseAddr "10.0.0.5".toList = some 167772165 ∧
    parseCandidate ("10.0.0.5" ++ "/32") = parseCandidate "10.0.0.5" :=
  ⟨by decide, by decide,
    parse_slash32_eq_single "10.0.0.5" 167772165 (by decide) (by decide)⟩

example : parseCandidate "10.0.0.5" = some (167772165, 167772165) := by decide
example : parseCandidate "192.168.1.0/24" = some (3232235776, 3232236031) := by decide
example : parseCandidate "999.999.999.999" = none := by decide
example : parseCandidate "010.0.0.5" = none := by decide
example : parseCandidate "192.168.1.7/24" = some (3232235776, 3232236031) := by decide
example : merge_ranges [(0, 5), (6, 10), (12, 20)] = [(0, 10), (12, 20)] := by decide
example : parse_ranges ["10.0.0.5", "10.0.0.1", "10.0.0.5"] false =
    [(167772161, 167772161), (167772165, 167772165)] := by decide

end IpExtract
